import Mathlib

/-!
Shallow embedding of the go-typ set library.

The repository has two near-duplicate set implementations, both Go maps
of type map[T]struct with empty-struct marker values:

* the free-standing `typ.Set` of set.go, with methods Has, Set, Unset,
  Clone, Slice, Intersect, Union, SetDiff, SymDiff and the free function
  CartesianProduct over the pair type SetProduct;
* the interface-conforming `maps.Set` of maps/set.go, with methods Has,
  Len, Add, AddSet, Remove, Clone, Slice, Intersect, Union, SetDiff,
  SymDiff, Range and the factory NewSetFromSlice.

A Go map is modelled by the list of its keys in iteration order; mutation
becomes explicit state passing, and a method that both mutates and returns
a value becomes a function returning a pair.  A heap model (sets addressed
by identifiers) is added further down for the claims about allocation
freshness and operand independence.
-/

namespace GoTyp

/-- The backing storage of a Go map-based set: its key list in iteration
order.  Operations only ever produce duplicate-free lists from
duplicate-free inputs, mirroring the uniqueness of map keys. -/
abbrev GoSet (α : Type) := List α

variable {α : Type} {β : Type} {σ : Type} [DecidableEq α] [DecidableEq β]

namespace Typ

/-- set.go Has: key lookup in the backing map. -/
def has (s : GoSet α) (v : α) : Bool := decide (v ∈ s)

/-- set.go Set method: if s.Has(value) return false; s[value] = marker;
return true.  Returns the mutated set and the reported Bool. -/
def set (s : GoSet α) (v : α) : GoSet α × Bool :=
  if has s v then (s, false) else (s ++ [v], true)

/-- set.go Unset method: if !s.Has(value) return false; delete(s, value);
return true. -/
def unset (s : GoSet α) (v : α) : GoSet α × Bool :=
  if !has s v then (s, false) else (s.filter (fun x => !decide (x = v)), true)

/-- set.go Clone: make an empty set and Set every key of the receiver
into it. -/
def clone (s : GoSet α) : GoSet α :=
  s.foldl (fun c v => (set c v).1) []

/-- set.go Slice: allocate an empty slice and append every key during one
traversal. -/
def slice (s : GoSet α) : List α :=
  s.foldl (fun r v => r ++ [v]) []

/-- set.go Intersect: for each v in s, if other.Has(v) then result.Set(v). -/
def intersect (s other : GoSet α) : GoSet α :=
  s.foldl (fun r v => if has other v then (set r v).1 else r) []

/-- set.go Union: result := s.Clone(); for each v in other, result.Set(v). -/
def union (s other : GoSet α) : GoSet α :=
  other.foldl (fun r v => (set r v).1) (clone s)

/-- set.go SetDiff: for each v in s, if !other.Has(v) then result.Set(v). -/
def setDiff (s other : GoSet α) : GoSet α :=
  s.foldl (fun r v => if !has other v then (set r v).1 else r) []

/-- set.go SymDiff: one loop over s adding values not in other, then one
loop over other adding values not in s, both into the same result. -/
def symDiff (s other : GoSet α) : GoSet α :=
  other.foldl (fun r v => if !has s v then (set r v).1 else r)
    (s.foldl (fun r v => if !has other v then (set r v).1 else r) [])

/-- set.go SetProduct: the resulting element type of a Cartesian product,
an ordered pair with component-wise equality. -/
structure SetProduct (α β : Type) where
  A : α
  B : β
  deriving DecidableEq

/-- set.go CartesianProduct: for valueA in a, for valueB in b,
result.Set(SetProduct(valueA, valueB)). -/
def cartesianProduct (a : GoSet α) (b : GoSet β) : GoSet (SetProduct α β) :=
  a.foldl (fun r va => b.foldl (fun r2 vb => (set r2 ⟨va, vb⟩).1) r) []

end Typ

namespace Maps

/-- maps/set.go Has: key lookup in the backing map. -/
def has (s : GoSet α) (v : α) : Bool := decide (v ∈ s)

/-- maps/set.go Len: len of the backing map, i.e. the number of keys. -/
def len (s : GoSet α) : Nat := s.length

/-- maps/set.go Add: if s.Has(value) return false; s[value] = marker;
return true. -/
def add (s : GoSet α) (v : α) : GoSet α × Bool :=
  if has s v then (s, false) else (s ++ [v], true)

/-- maps/set.go Remove: if !s.Has(value) return false; delete(s, value);
return true. -/
def remove (s : GoSet α) (v : α) : GoSet α × Bool :=
  if !has s v then (s, false) else (s.filter (fun x => !decide (x = v)), true)

/-- maps/set.go Range: for v over the keys, stop as soon as the visitor
returns false.  The visitor may carry state (the Go closures mutate their
environment), so it is modelled as state plus continue flag. -/
def rangeFold (s : GoSet α) (f : σ → α → σ × Bool) (init : σ) : σ :=
  match s with
  | [] => init
  | v :: rest =>
    let r := f init v
    if r.2 then rangeFold rest f r.1 else r.1

/-- The elements a Range traversal invokes its visitor on, in order. -/
def rangeVisited (s : GoSet α) (f : α → Bool) : List α :=
  rangeFold s (fun acc v => (acc ++ [v], f v)) []

/-- maps/set.go AddSet: other.Range with a visitor that Adds each value to
the receiver, counts successful adds, and always continues. -/
def addSet (s : GoSet α) (other : GoSet α) : GoSet α × Nat :=
  rangeFold other
    (fun (st : GoSet α × Nat) v =>
      ((if (add st.1 v).2 then ((add st.1 v).1, st.2 + 1) else ((add st.1 v).1, st.2)), true))
    (s, 0)

/-- maps/set.go Clone: make an empty set and Add every key of the
receiver into it. -/
def clone (s : GoSet α) : GoSet α :=
  s.foldl (fun c v => (add c v).1) []

/-- maps/set.go Slice: allocate an empty slice and append every key
during one traversal. -/
def slice (s : GoSet α) : List α :=
  s.foldl (fun r v => r ++ [v]) []

/-- maps/set.go NewSetFromSlice: make an empty set and Add every slice
element. -/
def newSetFromSlice (l : List α) : GoSet α :=
  l.foldl (fun s v => (add s v).1) []

/-- maps/set.go Intersect: for each v in s, if other.Has(v) then
result.Add(v). -/
def intersect (s other : GoSet α) : GoSet α :=
  s.foldl (fun r v => if has other v then (add r v).1 else r) []

/-- maps/set.go Union: result := s.Clone(); result.AddSet(other). -/
def union (s other : GoSet α) : GoSet α :=
  (addSet (clone s) other).1

/-- maps/set.go SetDiff: for each v in s, if !other.Has(v) then
result.Add(v). -/
def setDiff (s other : GoSet α) : GoSet α :=
  s.foldl (fun r v => if !has other v then (add r v).1 else r) []

/-- maps/set.go SymDiff: result := s.SetDiff(other); then other.Range with
a visitor adding every value not in s and always continuing. -/
def symDiff (s other : GoSet α) : GoSet α :=
  rangeFold other (fun r v => ((if !has s v then (add r v).1 else r), true))
    (setDiff s other)

end Maps

/-- Folding Add over a list of values, the shape of Clone, NewSetFromSlice
and the Union tail. -/
def addList (s : GoSet α) (l : List α) : GoSet α :=
  l.foldl (fun r v => (Maps.add r v).1) s

/-- Folding a guarded Add over a list of values, the shape of Intersect,
SetDiff and the second SymDiff loop. -/
def addListIf (p : α → Bool) (s : GoSet α) (l : List α) : GoSet α :=
  l.foldl (fun r v => if p v then (Maps.add r v).1 else r) s

/-- A single client operation against one set: Add v or Remove v. -/
inductive SetOp (α : Type) where
  | add (v : α)
  | remove (v : α)

/-- Run one operation against the set state. -/
def applyOp (s : GoSet α) : SetOp α → GoSet α
  | .add v => (Maps.add s v).1
  | .remove v => (Maps.remove s v).1

/-- Run a sequence of Add/Remove operations starting from the empty set. -/
def applyOps (ops : List (SetOp α)) : GoSet α := ops.foldl applyOp []

/-- Modelled from the spec: one step of the net operation history of a
value v — an Add of v makes it present, a Remove of v makes it absent,
operations on other values leave it untouched. -/
def presentStep (v : α) (b : Bool) : SetOp α → Bool
  | .add w => if w = v then true else b
  | .remove w => if w = v then false else b

/-- Modelled from the spec: v is present after a sequence of operations
iff its net operation history, starting absent, ends present. -/
def present (ops : List (SetOp α)) (v : α) : Bool :=
  ops.foldl (presentStep v) false

/-- The values ever passed to Add within an operation sequence. -/
def addedValues (ops : List (SetOp α)) : List α :=
  ops.filterMap (fun op => match op with | .add v => some v | .remove _ => none)

/-- Modelled from the spec: Clone collecting the receiver exclusively
through the Range visitor protocol. -/
def cloneViaRange (s : GoSet α) : GoSet α :=
  Maps.rangeFold s (fun c v => ((Maps.add c v).1, true)) []

/-- Modelled from the spec: Slice collecting elements exclusively through
the Range visitor protocol. -/
def sliceViaRange (s : GoSet α) : List α :=
  Maps.rangeFold s (fun acc v => (acc ++ [v], true)) []

/-- Modelled from the spec: Intersect driven by Range over the receiver,
keeping the values the other operand also has. -/
def intersectViaRange (s other : GoSet α) : GoSet α :=
  Maps.rangeFold s
    (fun r v => ((if Maps.has other v then (Maps.add r v).1 else r), true)) []

/-- Modelled from the spec: Union as a Range-built clone of the receiver
with every element of the other operand added through AddSet, which is
itself Range-driven. -/
def unionViaRange (s other : GoSet α) : GoSet α :=
  (Maps.addSet (cloneViaRange s) other).1

/-- Modelled from the spec: SetDiff driven by Range over the receiver,
keeping the values the other operand does not have. -/
def setDiffViaRange (s other : GoSet α) : GoSet α :=
  Maps.rangeFold s
    (fun r v => ((if !Maps.has other v then (Maps.add r v).1 else r), true)) []

/-- Modelled from the spec: SymDiff as the Range-driven one-sided
difference extended by a Range pass over the other operand. -/
def symDiffViaRange (s other : GoSet α) : GoSet α :=
  Maps.rangeFold other
    (fun r v => ((if !Maps.has s v then (Maps.add r v).1 else r), true))
    (setDiffViaRange s other)

/-! A heap model for the claims about allocation freshness and operand
independence.  Go map values are references: each live set is an entry of
a heap addressed by an identifier, reads go through the heap, and every
mutation is a write to one heap entry.  Allocation (Go make) appends a
fresh entry. -/

/-- Identifier of a set inside the heap. -/
abbrev SetId := Nat

/-- The heap of live map-backed sets: entry i is the backing key list of
the set with identifier i. -/
structure HState (α : Type) where
  sets : List (GoSet α)

/-- Read the backing storage of set i. -/
def HState.get (h : HState α) (i : SetId) : GoSet α := h.sets.getD i []

/-- Write the backing storage of set i. -/
def HState.put (h : HState α) (i : SetId) (s : GoSet α) : HState α :=
  ⟨h.sets.set i s⟩

/-- Allocate a new set (Go make) holding s; its identifier is the previous
heap size. -/
def HState.alloc (h : HState α) (s : GoSet α) : HState α × SetId :=
  (⟨h.sets ++ [s]⟩, h.sets.length)

/-- maps/set.go Add against the heap: read entry i, run Add, write the
mutated storage back to entry i. -/
def hAdd (h : HState α) (i : SetId) (v : α) : HState α × Bool :=
  (h.put i (Maps.add (h.get i) v).1, (Maps.add (h.get i) v).2)

/-- maps/set.go Remove against the heap. -/
def hRemove (h : HState α) (i : SetId) (v : α) : HState α × Bool :=
  (h.put i (Maps.remove (h.get i) v).1, (Maps.remove (h.get i) v).2)

/-- maps/set.go Clone against the heap: allocate an empty set, then Add
every key of the receiver into it. -/
def hClone (h : HState α) (i : SetId) : HState α × SetId :=
  (((h.alloc []).1.get i).foldl (fun hh v => (hAdd hh (h.alloc []).2 v).1) (h.alloc []).1,
    (h.alloc []).2)

/-- maps/set.go AddSet against the heap: Range over the other set, Adding
each of its values into set i and counting the successful adds. -/
def hAddSet (h : HState α) (i : SetId) (other : SetId) : HState α × Nat :=
  Maps.rangeFold (h.get other)
    (fun (st : HState α × Nat) v =>
      ((if (hAdd st.1 i v).2 then ((hAdd st.1 i v).1, st.2 + 1)
        else ((hAdd st.1 i v).1, st.2)), true))
    (h, 0)

/-- maps/set.go Union against the heap: clone the receiver, then AddSet
the other operand into the fresh clone. -/
def hUnion (h : HState α) (i j : SetId) : HState α × SetId :=
  ((hAddSet (hClone h i).1 (hClone h i).2 j).1, (hClone h i).2)

/-- maps/set.go Intersect against the heap: allocate an empty result,
then for each key of the receiver, Add it to the result when the other
operand currently has it. -/
def hIntersect (h : HState α) (i j : SetId) : HState α × SetId :=
  (((h.alloc []).1.get i).foldl
      (fun hh v => if Maps.has (hh.get j) v then (hAdd hh (h.alloc []).2 v).1 else hh)
      (h.alloc []).1,
    (h.alloc []).2)

/-- maps/set.go SetDiff against the heap: allocate an empty result, then
for each key of the receiver, Add it to the result when the other operand
currently does not have it. -/
def hSetDiff (h : HState α) (i j : SetId) : HState α × SetId :=
  (((h.alloc []).1.get i).foldl
      (fun hh v => if !Maps.has (hh.get j) v then (hAdd hh (h.alloc []).2 v).1 else hh)
      (h.alloc []).1,
    (h.alloc []).2)

/-- maps/set.go SymDiff against the heap: the one-sided difference, then a
Range pass over the other operand adding every value the receiver
currently does not have. -/
def hSymDiff (h : HState α) (i j : SetId) : HState α × SetId :=
  (Maps.rangeFold ((hSetDiff h i j).1.get j)
      (fun hh v =>
        ((if !Maps.has (hh.get i) v then (hAdd hh (hSetDiff h i j).2 v).1 else hh), true))
      (hSetDiff h i j).1,
    (hSetDiff h i j).2)

/-- set.go CartesianProduct against heaps: the operands live in their own
heaps and are only read; the result is allocated fresh in the heap of
pair-typed sets and filled with result.Set for every pair. -/
def hCartesianProduct (h : HState α) (g : HState β) (i j : SetId)
    (hp : HState (Typ.SetProduct α β)) : HState (Typ.SetProduct α β) × SetId :=
  ((h.get i).foldl
      (fun hh va =>
        (g.get j).foldl (fun hh2 vb => (hAdd hh2 (hp.alloc []).2 ⟨va, vb⟩).1) hh)
      (hp.alloc []).1,
    (hp.alloc []).2)

/-! Basic lemmas about Add and fold-of-Add, shared by all claims. -/

theorem add_fst_of_mem {s : GoSet α} {v : α} (h : v ∈ s) : Maps.add s v = (s, false) := by
  simp [Maps.add, Maps.has, h]

theorem add_fst_of_not_mem {s : GoSet α} {v : α} (h : v ∉ s) :
    Maps.add s v = (s ++ [v], true) := by
  simp [Maps.add, Maps.has, h]

theorem mem_add_fst {s : GoSet α} {v w : α} : w ∈ (Maps.add s v).1 ↔ w ∈ s ∨ w = v := by
  by_cases h : v ∈ s
  · rw [add_fst_of_mem h]
    constructor
    · exact fun hw => Or.inl hw
    · rintro (hw | rfl)
      · exact hw
      · exact h
  · rw [add_fst_of_not_mem h]
    simp [List.mem_append]

theorem add_snd (s : GoSet α) (v : α) : (Maps.add s v).2 = !Maps.has s v := by
  by_cases h : v ∈ s
  · rw [add_fst_of_mem h]; simp [Maps.has, h]
  · rw [add_fst_of_not_mem h]; simp [Maps.has, h]

theorem nodup_add_fst {s : GoSet α} {v : α} (h : s.Nodup) : (Maps.add s v).1.Nodup := by
  by_cases hv : v ∈ s
  · rw [add_fst_of_mem hv]; exact h
  · rw [add_fst_of_not_mem hv]
    simp [List.nodup_append, h, hv]

theorem mem_remove_fst {s : GoSet α} {v w : α} :
    w ∈ (Maps.remove s v).1 ↔ w ∈ s ∧ w ≠ v := by
  by_cases h : v ∈ s
  · simp [Maps.remove, Maps.has, h, List.mem_filter]
  · simp [Maps.remove, Maps.has, h]
    intro hw
    rintro rfl
    exact h hw

theorem remove_snd (s : GoSet α) (v : α) : (Maps.remove s v).2 = Maps.has s v := by
  by_cases h : v ∈ s <;> simp [Maps.remove, Maps.has, h]

theorem nodup_remove_fst {s : GoSet α} {v : α} (h : s.Nodup) : (Maps.remove s v).1.Nodup := by
  by_cases hv : v ∈ s
  · simp only [Maps.remove, Maps.has, hv]
    simp [h.filter]
  · simp [Maps.remove, Maps.has, hv, h]

theorem addList_nil (s : GoSet α) : addList s [] = s := rfl

theorem addList_cons (s : GoSet α) (v : α) (l : List α) :
    addList s (v :: l) = addList (Maps.add s v).1 l := rfl

theorem mem_addList {l : List α} {s : GoSet α} {w : α} :
    w ∈ addList s l ↔ w ∈ s ∨ w ∈ l := by
  induction l generalizing s with
  | nil => simp [addList_nil]
  | cons v l ih =>
    rw [addList_cons, ih, mem_add_fst]
    simp [List.mem_cons]
    tauto

theorem nodup_addList {l : List α} {s : GoSet α} (h : s.Nodup) : (addList s l).Nodup := by
  induction l generalizing s with
  | nil => exact h
  | cons v l ih => exact ih (nodup_add_fst h)

theorem addList_of_fresh {l : List α} {s : GoSet α} (hl : l.Nodup)
    (hf : ∀ v ∈ l, v ∉ s) : addList s l = s ++ l := by
  induction l generalizing s with
  | nil => simp [addList_nil]
  | cons v l ih =>
    rw [addList_cons, add_fst_of_not_mem (hf v (List.mem_cons_self v l))]
    rw [ih (List.nodup_cons.mp hl).2]
    · simp
    · intro w hw
      simp only [List.mem_append, List.mem_singleton]
      rintro (hws | rfl)
      · exact hf w (List.mem_cons_of_mem v hw) hws
      · exact (List.nodup_cons.mp hl).1 hw

theorem addListIf_nil (p : α → Bool) (s : GoSet α) : addListIf p s [] = s := rfl

theorem addListIf_cons (p : α → Bool) (s : GoSet α) (v : α) (l : List α) :
    addListIf p s (v :: l) = addListIf p (if p v then (Maps.add s v).1 else s) l := rfl

theorem mem_addListIf {p : α → Bool} {l : List α} {s : GoSet α} {w : α} :
    w ∈ addListIf p s l ↔ w ∈ s ∨ (w ∈ l ∧ p w = true) := by
  induction l generalizing s with
  | nil => simp [addListIf_nil]
  | cons v l ih =>
    rw [addListIf_cons, ih]
    by_cases hp : p v
    · simp only [hp, if_true, mem_add_fst, List.mem_cons]
      constructor
      · rintro ((hw | rfl) | hw)
        · exact Or.inl hw
        · exact Or.inr ⟨Or.inl rfl, hp⟩
        · exact Or.inr ⟨Or.inr hw.1, hw.2⟩
      · rintro (hw | ⟨(rfl | hw), hq⟩)
        · exact Or.inl (Or.inl hw)
        · exact Or.inl (Or.inr rfl)
        · exact Or.inr ⟨hw, hq⟩
    · simp only [hp, if_false, List.mem_cons]
      constructor
      · rintro (hw | hw)
        · exact Or.inl hw
        · exact Or.inr ⟨Or.inr hw.1, hw.2⟩
      · rintro (hw | ⟨(rfl | hw), hq⟩)
        · exact Or.inl hw
        · simp [hq] at hp
        · exact Or.inr ⟨hw, hq⟩

theorem nodup_addListIf {p : α → Bool} {l : List α} {s : GoSet α} (h : s.Nodup) :
    (addListIf p s l).Nodup := by
  induction l generalizing s with
  | nil => exact h
  | cons v l ih =>
    rw [addListIf_cons]
    by_cases hp : p v
    · simp only [hp, if_true]
      exact ih (nodup_add_fst h)
    · simp only [hp, if_false]
      exact ih h

/-! Range reduced to plain folds when the visitor always continues. -/

theorem rangeFold_true (l : List α) (g : σ → α → σ) (init : σ) :
    Maps.rangeFold l (fun st v => (g st v, true)) init = l.foldl g init := by
  induction l generalizing init with
  | nil => rfl
  | cons v rest ih =>
    simp only [Maps.rangeFold, if_true]
    exact ih (g init v)

theorem addSet_fst (s other : GoSet α) : (Maps.addSet s other).1 = addList s other := by
  have aux : ∀ (l : List α) (t : GoSet α) (n : Nat),
      (Maps.rangeFold l
        (fun (st : GoSet α × Nat) v =>
          ((if (Maps.add st.1 v).2 then ((Maps.add st.1 v).1, st.2 + 1)
            else ((Maps.add st.1 v).1, st.2)), true))
        (t, n)).1 = addList t l := by
    intro l
    induction l with
    | nil => intro t n; rfl
    | cons v rest ih =>
      intro t n
      simp only [Maps.rangeFold, if_true, addList_cons]
      by_cases hb : (Maps.add t v).2
      · simp only [hb, if_true]
        exact ih (Maps.add t v).1 (n + 1)
      · simp only [hb, if_false]
        exact ih (Maps.add t v).1 n
  exact aux other s 0

/-! Characterisations of the derived operations. -/

theorem clone_eq_addList (s : GoSet α) : Maps.clone s = addList [] s := rfl

theorem mem_clone {s : GoSet α} {w : α} : w ∈ Maps.clone s ↔ w ∈ s := by
  rw [clone_eq_addList, mem_addList]
  simp

theorem nodup_clone (s : GoSet α) : (Maps.clone s).Nodup := by
  rw [clone_eq_addList]
  exact nodup_addList List.nodup_nil

theorem clone_of_nodup {s : GoSet α} (h : s.Nodup) : Maps.clone s = s := by
  rw [clone_eq_addList, addList_of_fresh h (by simp)]
  simp

theorem foldl_append_singleton (l acc : List α) :
    l.foldl (fun r v => r ++ [v]) acc = acc ++ l := by
  induction l generalizing acc with
  | nil => simp
  | cons v rest ih =>
    simp only [List.foldl_cons, ih]
    simp

theorem slice_eq (s : GoSet α) : Maps.slice s = s := by
  unfold Maps.slice
  rw [foldl_append_singleton]
  simp

theorem newSetFromSlice_eq_addList (l : List α) : Maps.newSetFromSlice l = addList [] l := rfl

theorem mem_newSetFromSlice {l : List α} {w : α} : w ∈ Maps.newSetFromSlice l ↔ w ∈ l := by
  rw [newSetFromSlice_eq_addList, mem_addList]
  simp

theorem intersect_eq_addListIf (s other : GoSet α) :
    Maps.intersect s other = addListIf (fun v => Maps.has other v) [] s := rfl

theorem mem_intersect {s other : GoSet α} {w : α} :
    w ∈ Maps.intersect s other ↔ w ∈ s ∧ w ∈ other := by
  rw [intersect_eq_addListIf, mem_addListIf]
  simp [Maps.has]

theorem setDiff_eq_addListIf (s other : GoSet α) :
    Maps.setDiff s other = addListIf (fun v => !Maps.has other v) [] s := rfl

theorem mem_setDiff {s other : GoSet α} {w : α} :
    w ∈ Maps.setDiff s other ↔ w ∈ s ∧ w ∉ other := by
  rw [setDiff_eq_addListIf, mem_addListIf]
  simp [Maps.has]

theorem union_eq_addList (s other : GoSet α) :
    Maps.union s other = addList (Maps.clone s) other := by
  unfold Maps.union
  exact addSet_fst (Maps.clone s) other

theorem mem_union {s other : GoSet α} {w : α} :
    w ∈ Maps.union s other ↔ w ∈ s ∨ w ∈ other := by
  rw [union_eq_addList, mem_addList, mem_clone]

theorem symDiff_eq_addListIf (s other : GoSet α) :
    Maps.symDiff s other = addListIf (fun v => !Maps.has s v) (Maps.setDiff s other) other :=
  rangeFold_true other (fun r v => if !Maps.has s v then (Maps.add r v).1 else r)
    (Maps.setDiff s other)

theorem mem_symDiff {s other : GoSet α} {w : α} :
    w ∈ Maps.symDiff s other ↔ (w ∈ s ∧ w ∉ other) ∨ (w ∈ other ∧ w ∉ s) := by
  rw [symDiff_eq_addListIf, mem_addListIf, mem_setDiff]
  simp [Maps.has]

theorem nodup_intersect (s other : GoSet α) : (Maps.intersect s other).Nodup := by
  rw [intersect_eq_addListIf]
  exact nodup_addListIf List.nodup_nil

theorem nodup_setDiff (s other : GoSet α) : (Maps.setDiff s other).Nodup := by
  rw [setDiff_eq_addListIf]
  exact nodup_addListIf List.nodup_nil

theorem nodup_union (s other : GoSet α) : (Maps.union s other).Nodup := by
  rw [union_eq_addList]
  exact nodup_addList (nodup_clone s)

theorem nodup_symDiff (s other : GoSet α) : (Maps.symDiff s other).Nodup := by
  rw [symDiff_eq_addListIf]
  exact nodup_addListIf (nodup_setDiff s other)

/-! The free-standing typ.Set methods coincide with the maps.Set ones. -/

theorem typ_has_eq : @Typ.has α _ = @Maps.has α _ := rfl

theorem typ_set_eq : @Typ.set α _ = @Maps.add α _ := rfl

theorem typ_unset_eq : @Typ.unset α _ = @Maps.remove α _ := rfl

theorem typ_clone_eq : @Typ.clone α _ = @Maps.clone α _ := rfl

theorem typ_slice_eq : @Typ.slice α = @Maps.slice α := rfl

theorem typ_intersect_eq : @Typ.intersect α _ = @Maps.intersect α _ := rfl

theorem typ_setDiff_eq : @Typ.setDiff α _ = @Maps.setDiff α _ := rfl

theorem typ_union_eq (s other : GoSet α) : Typ.union s other = Maps.union s other := by
  rw [union_eq_addList]
  rfl

theorem typ_symDiff_eq (s other : GoSet α) : Typ.symDiff s other = Maps.symDiff s other := by
  rw [symDiff_eq_addListIf]
  rfl

/-! Lemmas about the elements a Range traversal visits. -/

theorem rangeVisited_const_false {s : GoSet α} (h : s ≠ []) :
    Maps.rangeVisited s (fun _ => false) = [s.head h] := by
  cases s with
  | nil => exact absurd rfl h
  | cons v rest => simp [Maps.rangeVisited, Maps.rangeFold]

theorem rangeVisited_const_true (s : GoSet α) :
    Maps.rangeVisited s (fun _ => true) = s := by
  unfold Maps.rangeVisited
  rw [rangeFold_true s (fun acc v => acc ++ [v]) [], foldl_append_singleton]
  simp

/-! Lemmas about sequences of Add and Remove operations. -/

theorem nodup_applyOp {s : GoSet α} (op : SetOp α) (h : s.Nodup) : (applyOp s op).Nodup := by
  cases op with
  | add v => exact nodup_add_fst h
  | remove v => exact nodup_remove_fst h

theorem has_applyOp (s : GoSet α) (op : SetOp α) (v : α) :
    Maps.has (applyOp s op) v = presentStep v (Maps.has s v) op := by
  cases op with
  | add w =>
    by_cases hw : w = v
    · subst hw
      simp [applyOp, presentStep, Maps.has, mem_add_fst]
    · have hvw : ¬v = w := fun hc => hw hc.symm
      simp [applyOp, presentStep, Maps.has, mem_add_fst, hw, hvw]
  | remove w =>
    by_cases hw : w = v
    · subst hw
      simp [applyOp, presentStep, Maps.has, mem_remove_fst]
    · have hvw : ¬v = w := fun hc => hw hc.symm
      simp [applyOp, presentStep, Maps.has, mem_remove_fst, hw, hvw]

theorem applyOps_core (ops : List (SetOp α)) :
    ∀ s : GoSet α, s.Nodup →
      (ops.foldl applyOp s).Nodup ∧
      ∀ v, Maps.has (ops.foldl applyOp s) v = ops.foldl (presentStep v) (Maps.has s v) := by
  induction ops with
  | nil => exact fun s h => ⟨h, fun v => rfl⟩
  | cons op ops ih =>
    intro s h
    obtain ⟨hn, hv⟩ := ih (applyOp s op) (nodup_applyOp op h)
    refine ⟨hn, fun v => ?_⟩
    rw [List.foldl_cons, List.foldl_cons, ← has_applyOp s op v]
    exact hv v

theorem present_imp_added (v : α) (ops : List (SetOp α)) :
    ∀ b : Bool, ops.foldl (presentStep v) b = true → b = true ∨ SetOp.add v ∈ ops := by
  induction ops with
  | nil => exact fun b h => Or.inl h
  | cons op ops ih =>
    intro b h
    rw [List.foldl_cons] at h
    rcases ih (presentStep v b op) h with hb | hmem
    · cases op with
      | add w =>
        by_cases hw : w = v
        · subst hw
          exact Or.inr (List.mem_cons_self _ _)
        · simp [presentStep, hw] at hb
          exact Or.inl hb
      | remove w =>
        by_cases hw : w = v
        · subst hw
          simp [presentStep] at hb
        · simp [presentStep, hw] at hb
          exact Or.inl hb
    · exact Or.inr (List.mem_cons_of_mem _ hmem)

theorem added_mem_addedValues {v : α} {ops : List (SetOp α)}
    (h : SetOp.add v ∈ ops) : v ∈ addedValues ops := by
  unfold addedValues
  rw [List.mem_filterMap]
  exact ⟨SetOp.add v, h, rfl⟩

/-! Lemmas about the Cartesian product. -/

theorem cartesianProduct_eq_foldl (a : GoSet α) (b : GoSet β) :
    Typ.cartesianProduct a b =
      a.foldl (fun r va => addList r (b.map (fun vb => Typ.SetProduct.mk va vb))) [] := by
  have hf : (fun (r : GoSet (Typ.SetProduct α β)) (va : α) =>
      b.foldl (fun r2 vb => (Typ.set r2 ⟨va, vb⟩).1) r) =
      (fun r va => addList r (b.map (fun vb => Typ.SetProduct.mk va vb))) := by
    funext r va
    exact (List.foldl_map (fun vb => Typ.SetProduct.mk va vb)
      (fun r2 p => (Maps.add r2 p).1) b r).symm
  unfold Typ.cartesianProduct
  rw [hf]

theorem cart_aux (b : GoSet β) (hb : b.Nodup) :
    ∀ (a : GoSet α) (acc : GoSet (Typ.SetProduct α β)),
      acc.Nodup → a.Nodup → (∀ p ∈ acc, p.A ∉ a) →
      ((a.foldl (fun r va => addList r (b.map (fun vb => Typ.SetProduct.mk va vb))) acc).Nodup ∧
        (a.foldl (fun r va => addList r (b.map (fun vb => Typ.SetProduct.mk va vb))) acc).length
          = acc.length + a.length * b.length ∧
        ∀ p, p ∈ a.foldl (fun r va => addList r (b.map (fun vb => Typ.SetProduct.mk va vb))) acc
          ↔ p ∈ acc ∨ (p.A ∈ a ∧ p.B ∈ b)) := by
  intro a
  induction a with
  | nil =>
    intro acc hacc _ _
    exact ⟨hacc, by simp, fun p => by simp⟩
  | cons va a ih =>
    intro acc hacc ha hA
    have hinj : Function.Injective (fun (vb : β) => Typ.SetProduct.mk va vb) := by
      intro x y hxy
      simpa using hxy
    have hmapnodup : (b.map (fun vb => Typ.SetProduct.mk va vb)).Nodup :=
      List.Nodup.map hinj hb
    have hfresh : ∀ p ∈ b.map (fun vb => Typ.SetProduct.mk va vb), p ∉ acc := by
      intro p hp hpacc
      obtain ⟨vb, _, rfl⟩ := List.mem_map.mp hp
      exact hA _ hpacc (List.mem_cons_self va a)
    have hstep : addList acc (b.map (fun vb => Typ.SetProduct.mk va vb))
        = acc ++ b.map (fun vb => Typ.SetProduct.mk va vb) :=
      addList_of_fresh hmapnodup hfresh
    have hacc1 : (addList acc (b.map (fun vb => Typ.SetProduct.mk va vb))).Nodup :=
      nodup_addList hacc
    have hva : va ∉ a := (List.nodup_cons.mp ha).1
    have hA1 : ∀ p ∈ addList acc (b.map (fun vb => Typ.SetProduct.mk va vb)), p.A ∉ a := by
      intro p hp
      rw [hstep, List.mem_append] at hp
      rcases hp with hp | hp
      · exact fun hpa => hA p hp (List.mem_cons_of_mem _ hpa)
      · obtain ⟨vb, _, rfl⟩ := List.mem_map.mp hp
        exact hva
    obtain ⟨hn, hlen, hmem⟩ :=
      ih (addList acc (b.map (fun vb => Typ.SetProduct.mk va vb))) hacc1
        (List.nodup_cons.mp ha).2 hA1
    have hlen1 : (addList acc (b.map (fun vb => Typ.SetProduct.mk va vb))).length
        = acc.length + b.length := by
      rw [hstep]
      simp
    refine ⟨hn, ?_, ?_⟩
    · rw [List.foldl_cons, hlen, hlen1, List.length_cons]
      ring
    · intro p
      rw [List.foldl_cons, hmem p, hstep, List.mem_append]
      obtain ⟨pa, pb⟩ := p
      simp only [List.mem_map, Typ.SetProduct.mk.injEq, List.mem_cons]
      constructor
      · rintro ((hp | ⟨vb, hvb, rfl, rfl⟩) | ⟨hpa, hpb⟩)
        · exact Or.inl hp
        · exact Or.inr ⟨Or.inl rfl, hvb⟩
        · exact Or.inr ⟨Or.inr hpa, hpb⟩
      · rintro (hp | ⟨(rfl | hpa), hpb⟩)
        · exact Or.inl (Or.inl hp)
        · exact Or.inl (Or.inr ⟨pb, hpb, rfl, rfl⟩)
        · exact Or.inr ⟨hpa, hpb⟩

/-! Lemmas about the heap model. -/

theorem get_put_ne {h : HState α} {i m : SetId} {s : GoSet α} (hne : m ≠ i) :
    (h.put i s).get m = h.get m := by
  unfold HState.get HState.put
  simp only [List.getD_eq_getElem?_getD]
  rw [List.getElem?_set_ne (Ne.symm hne)]

theorem get_put_self {h : HState α} {i : SetId} {s : GoSet α} (hi : i < h.sets.length) :
    (h.put i s).get i = s := by
  unfold HState.get HState.put
  simp only [List.getD_eq_getElem?_getD]
  rw [List.getElem?_set_self hi]
  rfl

theorem put_length (h : HState α) (i : SetId) (s : GoSet α) :
    (h.put i s).sets.length = h.sets.length := by
  simp [HState.put]

theorem get_alloc_lt {h : HState α} {s : GoSet α} {m : SetId} (hm : m < h.sets.length) :
    (h.alloc s).1.get m = h.get m := by
  unfold HState.get HState.alloc
  simp only [List.getD_eq_getElem?_getD]
  rw [List.getElem?_append_left hm]

theorem get_alloc_self (h : HState α) (s : GoSet α) :
    (h.alloc s).1.get (h.alloc s).2 = s := by
  unfold HState.get HState.alloc
  simp only [List.getD_eq_getElem?_getD]
  rw [List.getElem?_concat_length]
  rfl

theorem alloc_length (h : HState α) (s : GoSet α) :
    (h.alloc s).1.sets.length = h.sets.length + 1 := by
  simp [HState.alloc]

theorem hAdd_get_ne {h : HState α} {i m : SetId} {v : α} (hne : m ≠ i) :
    (hAdd h i v).1.get m = h.get m := get_put_ne hne

theorem hAdd_get_self {h : HState α} {i : SetId} {v : α} (hi : i < h.sets.length) :
    (hAdd h i v).1.get i = (Maps.add (h.get i) v).1 := get_put_self hi

theorem hAdd_length (h : HState α) (i : SetId) (v : α) :
    (hAdd h i v).1.sets.length = h.sets.length := put_length h i _

theorem hRemove_get_ne {h : HState α} {i m : SetId} {v : α} (hne : m ≠ i) :
    (hRemove h i v).1.get m = h.get m := get_put_ne hne

theorem hAddFoldAt (k : SetId) :
    ∀ (l : List α) (h0 : HState α), k < h0.sets.length →
      (∀ m, m ≠ k → (l.foldl (fun hh v => (hAdd hh k v).1) h0).get m = h0.get m) ∧
      (l.foldl (fun hh v => (hAdd hh k v).1) h0).sets.length = h0.sets.length ∧
      (l.foldl (fun hh v => (hAdd hh k v).1) h0).get k = addList (h0.get k) l := by
  intro l
  induction l with
  | nil => exact fun h0 _ => ⟨fun m _ => rfl, rfl, rfl⟩
  | cons v l ih =>
    intro h0 hk
    have hk1 : k < (hAdd h0 k v).1.sets.length := by rw [hAdd_length]; exact hk
    obtain ⟨hm, hl, hg⟩ := ih (hAdd h0 k v).1 hk1
    refine ⟨?_, ?_, ?_⟩
    · intro m hmk
      rw [List.foldl_cons, hm m hmk, hAdd_get_ne hmk]
    · rw [List.foldl_cons, hl, hAdd_length]
    · rw [List.foldl_cons, hg, hAdd_get_self hk, addList_cons]

theorem hCondFold (c : GoSet α → α → Bool) (k r : SetId) (hrk : r ≠ k) :
    ∀ (l : List α) (h0 : HState α), k < h0.sets.length →
      (∀ m, m ≠ k →
        (l.foldl (fun hh v => if c (hh.get r) v then (hAdd hh k v).1 else hh) h0).get m
          = h0.get m) ∧
      (l.foldl (fun hh v => if c (hh.get r) v then (hAdd hh k v).1 else hh) h0).sets.length
        = h0.sets.length ∧
      (l.foldl (fun hh v => if c (hh.get r) v then (hAdd hh k v).1 else hh) h0).get k
        = addListIf (fun v => c (h0.get r) v) (h0.get k) l := by
  intro l
  induction l with
  | nil => exact fun h0 _ => ⟨fun m _ => rfl, rfl, rfl⟩
  | cons v l ih =>
    intro h0 hk
    by_cases hc : c (h0.get r) v
    · have hk1 : k < (hAdd h0 k v).1.sets.length := by rw [hAdd_length]; exact hk
      obtain ⟨hm, hl, hg⟩ := ih (hAdd h0 k v).1 hk1
      refine ⟨?_, ?_, ?_⟩
      · intro m hmk
        simp only [List.foldl_cons]
        rw [if_pos hc, hm m hmk, hAdd_get_ne hmk]
      · simp only [List.foldl_cons]
        rw [if_pos hc, hl, hAdd_length]
      · simp only [List.foldl_cons]
        rw [if_pos hc, hg, hAdd_get_self hk, hAdd_get_ne hrk, addListIf_cons, if_pos hc]
    · obtain ⟨hm, hl, hg⟩ := ih h0 hk
      refine ⟨?_, ?_, ?_⟩
      · intro m hmk
        simp only [List.foldl_cons]
        rw [if_neg hc]
        exact hm m hmk
      · simp only [List.foldl_cons]
        rw [if_neg hc]
        exact hl
      · simp only [List.foldl_cons]
        rw [if_neg hc, hg, addListIf_cons, if_neg hc]

theorem hClone_spec (h : HState α) (i : SetId) (hi : i < h.sets.length) :
    (hClone h i).2 = h.sets.length ∧
    (∀ m, m < h.sets.length → (hClone h i).1.get m = h.get m) ∧
    (hClone h i).1.sets.length = h.sets.length + 1 ∧
    (hClone h i).1.get (hClone h i).2 = Maps.clone (h.get i) := by
  have hk : (h.alloc ([] : GoSet α)).2 = h.sets.length := rfl
  have hklt : (h.alloc ([] : GoSet α)).2 < (h.alloc ([] : GoSet α)).1.sets.length := by
    rw [hk, alloc_length]
    exact Nat.lt_succ_self _
  obtain ⟨hm, hl, hg⟩ := hAddFoldAt (h.alloc ([] : GoSet α)).2
    ((h.alloc ([] : GoSet α)).1.get i) (h.alloc ([] : GoSet α)).1 hklt
  refine ⟨rfl, ?_, ?_, ?_⟩
  · intro m hmlt
    have hmk : m ≠ (h.alloc ([] : GoSet α)).2 := by
      rw [hk]
      exact Nat.ne_of_lt hmlt
    show (hClone h i).1.get m = h.get m
    unfold hClone
    rw [hm m hmk, get_alloc_lt hmlt]
  · show (hClone h i).1.sets.length = h.sets.length + 1
    unfold hClone
    rw [hl, alloc_length]
  · show (hClone h i).1.get (hClone h i).2 = Maps.clone (h.get i)
    unfold hClone
    rw [hg, get_alloc_self, get_alloc_lt hi, clone_eq_addList]

theorem hAddSet_aux (i : SetId) :
    ∀ (l : List α) (h0 : HState α) (n : Nat), i < h0.sets.length →
      (∀ m, m ≠ i →
        (Maps.rangeFold l
          (fun (st : HState α × Nat) v =>
            ((if (hAdd st.1 i v).2 then ((hAdd st.1 i v).1, st.2 + 1)
              else ((hAdd st.1 i v).1, st.2)), true))
          (h0, n)).1.get m = h0.get m) ∧
      (Maps.rangeFold l
        (fun (st : HState α × Nat) v =>
          ((if (hAdd st.1 i v).2 then ((hAdd st.1 i v).1, st.2 + 1)
            else ((hAdd st.1 i v).1, st.2)), true))
        (h0, n)).1.sets.length = h0.sets.length := by
  intro l
  induction l with
  | nil => exact fun h0 n _ => ⟨fun m _ => rfl, rfl⟩
  | cons v l ih =>
    intro h0 n hk
    have hk1 : i < (hAdd h0 i v).1.sets.length := by rw [hAdd_length]; exact hk
    by_cases hb : (hAdd h0 i v).2
    · obtain ⟨hm, hl⟩ := ih (hAdd h0 i v).1 (n + 1) hk1
      constructor
      · intro m hmk
        simp only [Maps.rangeFold, if_pos hb, if_true]
        rw [hm m hmk, hAdd_get_ne hmk]
      · simp only [Maps.rangeFold, if_pos hb, if_true]
        rw [hl, hAdd_length]
    · obtain ⟨hm, hl⟩ := ih (hAdd h0 i v).1 n hk1
      constructor
      · intro m hmk
        simp only [Maps.rangeFold, if_neg hb, if_true]
        rw [hm m hmk, hAdd_get_ne hmk]
      · simp only [Maps.rangeFold, if_neg hb, if_true]
        rw [hl, hAdd_length]

theorem hUnion_spec (h : HState α) (i j : SetId) (hi : i < h.sets.length)
    (hj : j < h.sets.length) :
    (hUnion h i j).2 = h.sets.length ∧
    ∀ m, m < h.sets.length → (hUnion h i j).1.get m = h.get m := by
  obtain ⟨hck, hcm, hcl, _⟩ := hClone_spec h i hi
  have hklt : (hClone h i).2 < (hClone h i).1.sets.length := by
    rw [hck, hcl]
    exact Nat.lt_succ_self _
  obtain ⟨ham, _⟩ := hAddSet_aux (hClone h i).2 ((hClone h i).1.get j) (hClone h i).1 0 hklt
  refine ⟨hck, ?_⟩
  intro m hmlt
  have hmk : m ≠ (hClone h i).2 := by
    rw [hck]
    exact Nat.ne_of_lt hmlt
  show (hAddSet (hClone h i).1 (hClone h i).2 j).1.get m = h.get m
  unfold hAddSet
  rw [ham m hmk]
  exact hcm m hmlt

theorem hIntersect_spec (h : HState α) (i j : SetId) (hj : j < h.sets.length) :
    (hIntersect h i j).2 = h.sets.length ∧
    ∀ m, m < h.sets.length → (hIntersect h i j).1.get m = h.get m := by
  have hk : (h.alloc ([] : GoSet α)).2 = h.sets.length := rfl
  have hklt : (h.alloc ([] : GoSet α)).2 < (h.alloc ([] : GoSet α)).1.sets.length := by
    rw [hk, alloc_length]
    exact Nat.lt_succ_self _
  have hjk : j ≠ (h.alloc ([] : GoSet α)).2 := by
    rw [hk]
    exact Nat.ne_of_lt hj
  obtain ⟨hm, _, _⟩ := hCondFold (fun s v => Maps.has s v) (h.alloc ([] : GoSet α)).2 j hjk
    ((h.alloc ([] : GoSet α)).1.get i) (h.alloc ([] : GoSet α)).1 hklt
  refine ⟨rfl, ?_⟩
  intro m hmlt
  have hmk : m ≠ (h.alloc ([] : GoSet α)).2 := by
    rw [hk]
    exact Nat.ne_of_lt hmlt
  show (hIntersect h i j).1.get m = h.get m
  unfold hIntersect
  rw [hm m hmk, get_alloc_lt hmlt]

theorem hSetDiff_spec (h : HState α) (i j : SetId) (hj : j < h.sets.length) :
    (hSetDiff h i j).2 = h.sets.length ∧
    (∀ m, m < h.sets.length → (hSetDiff h i j).1.get m = h.get m) ∧
    (hSetDiff h i j).1.sets.length = h.sets.length + 1 := by
  have hk : (h.alloc ([] : GoSet α)).2 = h.sets.length := rfl
  have hklt : (h.alloc ([] : GoSet α)).2 < (h.alloc ([] : GoSet α)).1.sets.length := by
    rw [hk, alloc_length]
    exact Nat.lt_succ_self _
  have hjk : j ≠ (h.alloc ([] : GoSet α)).2 := by
    rw [hk]
    exact Nat.ne_of_lt hj
  obtain ⟨hm, hl, _⟩ := hCondFold (fun s v => !Maps.has s v) (h.alloc ([] : GoSet α)).2 j hjk
    ((h.alloc ([] : GoSet α)).1.get i) (h.alloc ([] : GoSet α)).1 hklt
  refine ⟨rfl, ?_, ?_⟩
  · intro m hmlt
    have hmk : m ≠ (h.alloc ([] : GoSet α)).2 := by
      rw [hk]
      exact Nat.ne_of_lt hmlt
    show (hSetDiff h i j).1.get m = h.get m
    unfold hSetDiff
    rw [hm m hmk, get_alloc_lt hmlt]
  · show (hSetDiff h i j).1.sets.length = h.sets.length + 1
    unfold hSetDiff
    rw [hl, alloc_length]

theorem hSymDiff_spec (h : HState α) (i j : SetId) (hi : i < h.sets.length)
    (hj : j < h.sets.length) :
    (hSymDiff h i j).2 = h.sets.length ∧
    ∀ m, m < h.sets.length → (hSymDiff h i j).1.get m = h.get m := by
  obtain ⟨hdk, hdm, hdl⟩ := hSetDiff_spec h i j hj
  have hklt : (hSetDiff h i j).2 < (hSetDiff h i j).1.sets.length := by
    rw [hdk, hdl]
    exact Nat.lt_succ_self _
  have hik : i ≠ (hSetDiff h i j).2 := by
    rw [hdk]
    exact Nat.ne_of_lt hi
  obtain ⟨hm, _, _⟩ := hCondFold (fun s v => !Maps.has s v) (hSetDiff h i j).2 i hik
    ((hSetDiff h i j).1.get j) (hSetDiff h i j).1 hklt
  refine ⟨hdk, ?_⟩
  intro m hmlt
  have hmk : m ≠ (hSetDiff h i j).2 := by
    rw [hdk]
    exact Nat.ne_of_lt hmlt
  show (hSymDiff h i j).1.get m = h.get m
  unfold hSymDiff
  rw [rangeFold_true]
  rw [hm m hmk]
  exact hdm m hmlt

theorem hCartFold_aux (g : HState β) (j : SetId) (k : SetId) :
    ∀ (a : List α) (hh0 : HState (Typ.SetProduct α β)), k < hh0.sets.length →
      (∀ m, m ≠ k →
        (a.foldl
          (fun hh va => (g.get j).foldl (fun hh2 vb => (hAdd hh2 k ⟨va, vb⟩).1) hh)
          hh0).get m = hh0.get m) ∧
      (a.foldl
        (fun hh va => (g.get j).foldl (fun hh2 vb => (hAdd hh2 k ⟨va, vb⟩).1) hh)
        hh0).sets.length = hh0.sets.length := by
  intro a
  induction a with
  | nil => exact fun hh0 _ => ⟨fun m _ => rfl, rfl⟩
  | cons va a ih =>
    intro hh0 hk
    have hinner : (g.get j).foldl (fun hh2 vb => (hAdd hh2 k ⟨va, vb⟩).1) hh0
        = ((g.get j).map (fun vb => Typ.SetProduct.mk va vb)).foldl
            (fun hh2 p => (hAdd hh2 k p).1) hh0 :=
      (List.foldl_map (fun vb => Typ.SetProduct.mk va vb)
        (fun hh2 p => (hAdd hh2 k p).1) (g.get j) hh0).symm
    obtain ⟨him, hil, _⟩ := hAddFoldAt k
      ((g.get j).map (fun vb => Typ.SetProduct.mk va vb)) hh0 hk
    have hk1 : k < ((g.get j).foldl (fun hh2 vb => (hAdd hh2 k ⟨va, vb⟩).1) hh0).sets.length := by
      rw [hinner, hil]
      exact hk
    obtain ⟨hm, hl⟩ := ih ((g.get j).foldl (fun hh2 vb => (hAdd hh2 k ⟨va, vb⟩).1) hh0) hk1
    constructor
    · intro m hmk
      rw [List.foldl_cons, hm m hmk, hinner, him m hmk]
    · rw [List.foldl_cons, hl, hinner, hil]

theorem hCartesianProduct_spec (h : HState α) (g : HState β) (i j : SetId)
    (hp : HState (Typ.SetProduct α β)) :
    (hCartesianProduct h g i j hp).2 = hp.sets.length ∧
    ∀ m, m < hp.sets.length → (hCartesianProduct h g i j hp).1.get m = hp.get m := by
  have hk : (hp.alloc ([] : GoSet (Typ.SetProduct α β))).2 = hp.sets.length := rfl
  have hklt : (hp.alloc ([] : GoSet (Typ.SetProduct α β))).2
      < (hp.alloc ([] : GoSet (Typ.SetProduct α β))).1.sets.length := by
    rw [hk, alloc_length]
    exact Nat.lt_succ_self _
  obtain ⟨hm, _⟩ := hCartFold_aux g j (hp.alloc ([] : GoSet (Typ.SetProduct α β))).2
    (h.get i) (hp.alloc ([] : GoSet (Typ.SetProduct α β))).1 hklt
  refine ⟨rfl, ?_⟩
  intro m hmlt
  have hmk : m ≠ (hp.alloc ([] : GoSet (Typ.SetProduct α β))).2 := by
    rw [hk]
    exact Nat.ne_of_lt hmlt
  show (hCartesianProduct h g i j hp).1.get m = hp.get m
  unfold hCartesianProduct
  rw [hm m hmk, get_alloc_lt hmlt]

/-! The claims. -/

/-- C1: for every sequence of Add and Remove operations starting from the
empty set, the backing storage holds every value at most once (presence
determined solely by equality of keys), Has(v) is true iff the net
operation history of v leaves it present, and Len() equals the number of
distinct values added and not subsequently removed. -/
theorem c1_uniqueness_invariant (ops : List (SetOp α)) :
    (applyOps ops).Nodup ∧
    (∀ v, Maps.has (applyOps ops) v = present ops v) ∧
    Maps.len (applyOps ops)
      = ((addedValues ops).dedup.filter (fun v => present ops v)).length := by
  obtain ⟨hn0, hh⟩ := applyOps_core ops [] List.nodup_nil
  have hn : (applyOps ops).Nodup := hn0
  have hhv : ∀ v, Maps.has (applyOps ops) v = present ops v := by
    intro v
    have h0 : Maps.has ([] : GoSet α) v = false := by simp [Maps.has]
    have hv := hh v
    rw [h0] at hv
    exact hv
  refine ⟨hn, hhv, ?_⟩
  have hmemiff : ∀ v, v ∈ applyOps ops
      ↔ v ∈ (addedValues ops).dedup.filter (fun v => present ops v) := by
    intro v
    rw [List.mem_filter, List.mem_dedup]
    constructor
    · intro hv
      have hp : present ops v = true := by
        rw [← hhv v]
        simp [Maps.has, hv]
      rcases present_imp_added v ops false hp with hfalse | hadd
      · simp at hfalse
      · exact ⟨added_mem_addedValues hadd, hp⟩
    · rintro ⟨_, hp⟩
      have hv : Maps.has (applyOps ops) v = true := by rw [hhv v]; exact hp
      simpa [Maps.has] using hv
  have hLnodup : ((addedValues ops).dedup.filter (fun v => present ops v)).Nodup :=
    (List.nodup_dedup _).filter _
  have htofin : (applyOps ops).toFinset
      = ((addedValues ops).dedup.filter (fun v => present ops v)).toFinset := by
    apply Finset.ext
    intro v
    simp only [List.mem_toFinset]
    exact hmemiff v
  show (applyOps ops).length = _
  rw [← List.toFinset_card_of_nodup hn, ← List.toFinset_card_of_nodup hLnodup, htofin]

/-- C2: Add returns true iff the value was absent; if Has(v) already held,
Add(v) returns false and leaves the set unchanged, and two consecutive
Add(v) calls leave the set identical to one call; likewise for the
free-standing Set method of set.go. -/
theorem c2_add_idempotence (s : GoSet α) (v : α) :
    ((Maps.add s v).2 = !Maps.has s v) ∧
    (Maps.has s v = true → Maps.add s v = (s, false)) ∧
    ((Maps.add (Maps.add s v).1 v).1 = (Maps.add s v).1) ∧
    ((Typ.set s v).2 = !Typ.has s v) ∧
    (Typ.has s v = true → Typ.set s v = (s, false)) ∧
    ((Typ.set (Typ.set s v).1 v).1 = (Typ.set s v).1) := by
  have hmem : v ∈ (Maps.add s v).1 := mem_add_fst.mpr (Or.inr rfl)
  have hdouble : (Maps.add (Maps.add s v).1 v).1 = (Maps.add s v).1 := by
    rw [add_fst_of_mem hmem]
  have hof : Maps.has s v = true → Maps.add s v = (s, false) := by
    intro hv
    have hm : v ∈ s := by simpa [Maps.has] using hv
    exact add_fst_of_mem hm
  exact ⟨add_snd s v, hof, hdouble, add_snd s v, hof, hdouble⟩

/-- C2 witness: with 1 already present, both Add and Set report false and
leave the set unchanged. -/
theorem c2_add_idempotence_witness :
    Maps.add [1] 1 = ([1], false) ∧ Typ.set [1] 1 = ([1], false) :=
  ⟨(c2_add_idempotence [1] 1).2.1 (by decide),
    (c2_add_idempotence [1] 1).2.2.2.2.1 (by decide)⟩

/-- C3: Union, Intersect and SymDiff are commutative in membership: for
all sets A and B and every value v, the two operand orders report the same
Has result. -/
theorem c3_commutative_membership (A B : GoSet α) (v : α) :
    Maps.has (Maps.union A B) v = Maps.has (Maps.union B A) v ∧
    Maps.has (Maps.intersect A B) v = Maps.has (Maps.intersect B A) v ∧
    Maps.has (Maps.symDiff A B) v = Maps.has (Maps.symDiff B A) v := by
  refine ⟨?_, ?_, ?_⟩ <;> simp only [Maps.has] <;> rw [decide_eq_decide]
  · rw [mem_union, mem_union]
    tauto
  · rw [mem_intersect, mem_intersect]
    tauto
  · rw [mem_symDiff, mem_symDiff]
    tauto

/-- C4: SetDiff(A,B) has exactly the values of A absent from B; on the
concrete sets of the spec it computes 1,2 and 4,5; the results of the two
operand orders differ in membership whenever the two one-sided
differences differ; and both implementations compute the same SetDiff. -/
theorem c4_setDiff_correct :
    (∀ (A B : GoSet α) (v : α),
      Maps.has (Maps.setDiff A B) v = (Maps.has A v && !Maps.has B v)) ∧
    Maps.setDiff ([1, 2, 3] : GoSet Nat) [3, 4, 5] = [1, 2] ∧
    Maps.setDiff ([3, 4, 5] : GoSet Nat) [1, 2, 3] = [4, 5] ∧
    (∀ A B : GoSet α, Typ.setDiff A B = Maps.setDiff A B) ∧
    (∀ A B : GoSet α,
      (∃ v, ¬((v ∈ A ∧ v ∉ B) ↔ (v ∈ B ∧ v ∉ A))) →
      ∃ v, Maps.has (Maps.setDiff A B) v ≠ Maps.has (Maps.setDiff B A) v) := by
  refine ⟨?_, by rfl, by rfl, ?_, ?_⟩
  · intro A B v
    by_cases hA : v ∈ A <;> by_cases hB : v ∈ B <;>
      simp [Maps.has, mem_setDiff, hA, hB]
  · intro A B
    rw [typ_setDiff_eq]
  · rintro A B ⟨v, hv⟩
    refine ⟨v, ?_⟩
    simp only [Maps.has, ne_eq, decide_eq_decide]
    rw [mem_setDiff, mem_setDiff]
    exact hv

/-- C4 witness: on the spec sets 1,2,3 and 3,4,5, SetDiff is not
symmetric. -/
theorem c4_setDiff_correct_witness :
    ∃ v, Maps.has (Maps.setDiff ([1, 2, 3] : GoSet Nat) [3, 4, 5]) v
      ≠ Maps.has (Maps.setDiff ([3, 4, 5] : GoSet Nat) [1, 2, 3]) v :=
  c4_setDiff_correct.2.2.2.2 [1, 2, 3] [3, 4, 5] ⟨1, by decide⟩

/-- C5: the Cartesian product of two duplicate-free sets is exactly the
set of ordered pairs drawn component-wise from the operands, and its
cardinality is the product of the operand cardinalities. -/
theorem c5_cartesian_product (a : GoSet α) (b : GoSet β)
    (ha : a.Nodup) (hb : b.Nodup) :
    (∀ p : Typ.SetProduct α β, p ∈ Typ.cartesianProduct a b ↔ p.A ∈ a ∧ p.B ∈ b) ∧
    Maps.len (Typ.cartesianProduct a b) = Maps.len a * Maps.len b := by
  obtain ⟨_, hlen, hmem⟩ := cart_aux b hb a [] List.nodup_nil ha (by simp)
  rw [cartesianProduct_eq_foldl]
  constructor
  · intro p
    rw [hmem p]
    simp
  · show (List.foldl _ [] a).length = a.length * b.length
    rw [hlen]
    simp

/-- C5 witness: a three-element set times a two-element set has six
pairs. -/
theorem c5_cartesian_product_witness :
    Maps.len (Typ.cartesianProduct ([1, 2, 3] : GoSet Nat) ([4, 5] : GoSet Nat))
      = Maps.len ([1, 2, 3] : GoSet Nat) * Maps.len ([4, 5] : GoSet Nat) :=
  (c5_cartesian_product [1, 2, 3] [4, 5] (by decide) (by decide)).2

/-- C6: building a new set from S.Slice() yields a set with the same Len
and the same Has answer for every value as S. -/
theorem c6_slice_roundtrip (s : GoSet α) (h : s.Nodup) :
    Maps.len (Maps.newSetFromSlice (Maps.slice s)) = Maps.len s ∧
    ∀ v, Maps.has (Maps.newSetFromSlice (Maps.slice s)) v = Maps.has s v := by
  have hround : Maps.newSetFromSlice (Maps.slice s) = s := by
    rw [slice_eq, newSetFromSlice_eq_addList, addList_of_fresh h (by simp)]
    simp
  rw [hround]
  exact ⟨rfl, fun v => rfl⟩

/-- C6 witness: the round trip preserves Len on a concrete set. -/
theorem c6_slice_roundtrip_witness :
    Maps.len (Maps.newSetFromSlice (Maps.slice ([1, 2, 3] : GoSet Nat)))
      = Maps.len ([1, 2, 3] : GoSet Nat) :=
  (c6_slice_roundtrip [1, 2, 3] (by decide)).1

/-- C8: on a non-empty set, Range with a visitor that always answers
false invokes the visitor on exactly one element; with a visitor that
always answers true it is invoked exactly once per element of the set. -/
theorem c8_range_early_stop (s : GoSet α) (hs : s.Nodup) (hne : s ≠ []) :
    (Maps.rangeVisited s (fun _ => false)).length = 1 ∧
    Maps.rangeVisited s (fun _ => true) = s ∧
    ∀ v ∈ s, (Maps.rangeVisited s (fun _ => true)).count v = 1 := by
  refine ⟨?_, rangeVisited_const_true s, ?_⟩
  · rw [rangeVisited_const_false hne]
    rfl
  · intro v hv
    rw [rangeVisited_const_true s]
    exact List.count_eq_one_of_mem hs hv

/-- C8 witness: on the concrete set 1,2,3 an always-false visitor is
invoked exactly once. -/
theorem c8_range_early_stop_witness :
    (Maps.rangeVisited ([1, 2, 3] : GoSet Nat) (fun _ => false)).length = 1 :=
  (c8_range_early_stop [1, 2, 3] (by decide) (by decide)).1

/-- C9: Slice, Intersect, Union, SetDiff and SymDiff produce exactly the
results of reference implementations that reach the elements exclusively
through the Range visitor protocol. -/
theorem c9_range_refinement (s other : GoSet α) :
    sliceViaRange s = Maps.slice s ∧
    intersectViaRange s other = Maps.intersect s other ∧
    unionViaRange s other = Maps.union s other ∧
    setDiffViaRange s other = Maps.setDiff s other ∧
    symDiffViaRange s other = Maps.symDiff s other := by
  refine ⟨?_, ?_, ?_, ?_, ?_⟩
  · exact rangeFold_true s (fun acc v => acc ++ [v]) []
  · exact rangeFold_true s (fun r v => if Maps.has other v then (Maps.add r v).1 else r) []
  · have hc : cloneViaRange s = Maps.clone s :=
      rangeFold_true s (fun c v => (Maps.add c v).1) []
    unfold unionViaRange Maps.union
    rw [hc]
  · exact rangeFold_true s (fun r v => if !Maps.has other v then (Maps.add r v).1 else r) []
  · have hd : setDiffViaRange s other = Maps.setDiff s other :=
      rangeFold_true s (fun r v => if !Maps.has other v then (Maps.add r v).1 else r) []
    unfold symDiffViaRange Maps.symDiff
    rw [hd]

/-- C10: for sets with the same elements, the free-standing typ.Set and
the interface-conforming maps.Set return the same booleans for
membership, Set/Add and Unset/Remove, and produce results with identical
membership for Clone, Slice, Intersect, Union, SetDiff and SymDiff. -/
theorem c10_two_implementations_equivalent (s1 s2 o1 o2 : GoSet α)
    (hs : ∀ v, v ∈ s1 ↔ v ∈ s2) (ho : ∀ v, v ∈ o1 ↔ v ∈ o2) :
    (∀ v, Typ.has s1 v = Maps.has s2 v) ∧
    (∀ v, (Typ.set s1 v).2 = (Maps.add s2 v).2) ∧
    (∀ v, (Typ.unset s1 v).2 = (Maps.remove s2 v).2) ∧
    (∀ w, w ∈ Typ.clone s1 ↔ w ∈ Maps.clone s2) ∧
    (∀ w, w ∈ Typ.slice s1 ↔ w ∈ Maps.slice s2) ∧
    (∀ w, w ∈ Typ.intersect s1 o1 ↔ w ∈ Maps.intersect s2 o2) ∧
    (∀ w, w ∈ Typ.union s1 o1 ↔ w ∈ Maps.union s2 o2) ∧
    (∀ w, w ∈ Typ.setDiff s1 o1 ↔ w ∈ Maps.setDiff s2 o2) ∧
    (∀ w, w ∈ Typ.symDiff s1 o1 ↔ w ∈ Maps.symDiff s2 o2) := by
  have hhas : ∀ v, Maps.has s1 v = Maps.has s2 v := by
    intro v
    simp only [Maps.has]
    rw [decide_eq_decide]
    exact hs v
  refine ⟨?_, ?_, ?_, ?_, ?_, ?_, ?_, ?_, ?_⟩
  · intro v
    rw [typ_has_eq]
    exact hhas v
  · intro v
    rw [typ_set_eq, add_snd, add_snd, hhas v]
  · intro v
    rw [typ_unset_eq, remove_snd, remove_snd, hhas v]
  · intro w
    rw [typ_clone_eq, mem_clone, mem_clone]
    exact hs w
  · intro w
    rw [typ_slice_eq, slice_eq, slice_eq]
    exact hs w
  · intro w
    rw [typ_intersect_eq, mem_intersect, mem_intersect]
    exact and_congr (hs w) (ho w)
  · intro w
    rw [typ_union_eq, mem_union, mem_union]
    exact or_congr (hs w) (ho w)
  · intro w
    rw [typ_setDiff_eq, mem_setDiff, mem_setDiff]
    exact and_congr (hs w) (not_congr (ho w))
  · intro w
    rw [typ_symDiff_eq, mem_symDiff, mem_symDiff]
    exact or_congr (and_congr (hs w) (not_congr (ho w)))
      (and_congr (ho w) (not_congr (hs w)))

/-- C10 witness: concrete equal-membership operands in different storage
order give Union results with identical membership. -/
theorem c10_two_implementations_equivalent_witness :
    (3 : Nat) ∈ Typ.union [1, 2] [2, 3] ↔ (3 : Nat) ∈ Maps.union [2, 1] [3, 2] := by
  refine (c10_two_implementations_equivalent [1, 2] [2, 1] [2, 3] [3, 2]
    ?_ ?_).2.2.2.2.2.2.1 3
  · intro v
    simp only [List.mem_cons, List.not_mem_nil, or_false]
    exact or_comm
  · intro v
    simp only [List.mem_cons, List.not_mem_nil, or_false]
    exact or_comm

/-- C7: in the heap model, Union, Intersect, SetDiff, SymDiff and
CartesianProduct each return a freshly allocated set identifier (the
previous heap size, hence no existing set) and leave the storage of every
pre-existing set, in particular both operands, unchanged; Clone returns a
fresh independent copy with identical contents, and Add or Remove on the
clone never changes the original and vice versa. -/
theorem c7_freshness_independence (h : HState α) (g : HState β) (i j : SetId)
    (hp : HState (Typ.SetProduct α β))
    (hi : i < h.sets.length) (hj : j < h.sets.length) :
    ((hUnion h i j).2 = h.sets.length ∧
      ∀ m, m < h.sets.length → (hUnion h i j).1.get m = h.get m) ∧
    ((hIntersect h i j).2 = h.sets.length ∧
      ∀ m, m < h.sets.length → (hIntersect h i j).1.get m = h.get m) ∧
    ((hSetDiff h i j).2 = h.sets.length ∧
      ∀ m, m < h.sets.length → (hSetDiff h i j).1.get m = h.get m) ∧
    ((hSymDiff h i j).2 = h.sets.length ∧
      ∀ m, m < h.sets.length → (hSymDiff h i j).1.get m = h.get m) ∧
    ((hCartesianProduct h g i j hp).2 = hp.sets.length ∧
      ∀ m, m < hp.sets.length → (hCartesianProduct h g i j hp).1.get m = hp.get m) ∧
    ((hClone h i).2 = h.sets.length ∧
      (∀ m, m < h.sets.length → (hClone h i).1.get m = h.get m) ∧
      (∀ v, Maps.has ((hClone h i).1.get (hClone h i).2) v = Maps.has (h.get i) v) ∧
      (∀ v, (hAdd (hClone h i).1 (hClone h i).2 v).1.get i = (hClone h i).1.get i) ∧
      (∀ v, (hRemove (hClone h i).1 (hClone h i).2 v).1.get i = (hClone h i).1.get i) ∧
      (∀ v, (hAdd (hClone h i).1 i v).1.get (hClone h i).2
        = (hClone h i).1.get (hClone h i).2) ∧
      (∀ v, (hRemove (hClone h i).1 i v).1.get (hClone h i).2
        = (hClone h i).1.get (hClone h i).2)) := by
  obtain ⟨hck, hcm, hcl, hcg⟩ := hClone_spec h i hi
  have hik : i ≠ (hClone h i).2 := by
    rw [hck]
    exact Nat.ne_of_lt hi
  refine ⟨hUnion_spec h i j hi hj, hIntersect_spec h i j hj,
    ⟨(hSetDiff_spec h i j hj).1, (hSetDiff_spec h i j hj).2.1⟩,
    hSymDiff_spec h i j hi hj, hCartesianProduct_spec h g i j hp,
    hck, hcm, ?_, ?_, ?_, ?_, ?_⟩
  · intro v
    rw [hcg]
    simp only [Maps.has]
    rw [decide_eq_decide]
    exact mem_clone
  · intro v
    exact hAdd_get_ne hik
  · intro v
    exact hRemove_get_ne hik
  · intro v
    exact hAdd_get_ne (Ne.symm hik)
  · intro v
    exact hRemove_get_ne (Ne.symm hik)

/-- C7 witness: on a concrete two-set heap, Union allocates exactly the
next free identifier. -/
theorem c7_freshness_independence_witness :
    (hUnion (⟨[[1, 2], [2, 3]]⟩ : HState Nat) 0 1).2
      = (⟨[[1, 2], [2, 3]]⟩ : HState Nat).sets.length :=
  (c7_freshness_independence (⟨[[1, 2], [2, 3]]⟩ : HState Nat)
    (⟨[[5]]⟩ : HState Nat) 0 1 (⟨[]⟩ : HState (Typ.SetProduct Nat Nat))
    (by decide) (by decide)).1.1

end GoTyp
